import Mathlib

/-!
Verification of the deadlock-detection core (src/utils/deadlockAlgorithm.ts)
against its natural-language specification.

The TypeScript is embedded shallowly: string-keyed JS objects
(`{ [resourceId: string]: number }`) become association lists
`List (String × Int)` (JS object keys are unique and iterate in insertion
order, which `Object.entries`/`Object.values` follow); the mutable
`availableResources` map becomes a total function `String → Int` updated
functionally (the code reads the map only through `m[k] || 0`, which maps a
missing key — and a key holding 0 — to 0, so the total-function view with
default 0 is observationally exact); the JS `Set` of finished ids becomes a
duplicate-free `List String` grown by insert-if-absent, matching `Set.add`,
`Set.has` and `Set.size`.  The `while (changeInLastIteration)` loop becomes a
fueled recursion; fuel `processes.length + 1` is always sufficient because
each round either admits one process (growing the duplicate-free finished set,
which is bounded by the number of distinct process ids) or returns, which is
proved below (see the fuel-congruence lemma and the claim-C6 theorem).
-/

namespace DeadlockTool

/-- `Process` from the source: id, `allocation` and `request` maps. -/
structure Process where
  id : String
  allocation : List (String × Int)
  request : List (String × Int)
deriving Repr, DecidableEq

/-- `Resource` from the source. -/
structure Resource where
  id : String
  total : Int
  available : Int
  isMultiInstance : Bool
deriving Repr, DecidableEq

/-- `AllocationMatrix` from the source. -/
structure AllocationMatrix where
  processes : List Process
  resources : List Resource
deriving Repr, DecidableEq

/-- One step of the subtraction loop in `calculateAvailableResources`:
`const resource = resources.find(r => r.id === resourceId); if (resource) resource.available -= allocated;`
changes the first resource in the list whose id matches (if any). -/
def subtractFirst : List Resource → String → Int → List Resource
  | [], _, _ => []
  | r :: rs, rid, amt =>
    if r.id = rid then { r with available := r.available - amt } :: rs
    else r :: subtractFirst rs rid amt

/-- `calculateAvailableResources` (lines 21-40): reset every `available` to
`total`, then for each process and each of its allocation entries subtract the
allocated amount from the (first) resource with that id; entries whose id
matches no resource are skipped by the `if (resource)` guard, which
`subtractFirst` reproduces by leaving the list unchanged. -/
def calculateAvailableResources (matrix : AllocationMatrix) : List Resource :=
  let resources := matrix.resources.map fun r => { r with available := r.total }
  matrix.processes.foldl
    (fun rs p => p.allocation.foldl (fun rs2 e => subtractFirst rs2 e.1 e.2) rs)
    resources

/-- State-passing embedding of `calculateAvailableResources`, recording the
effect of the call on the caller's matrix.  In the source,
`const resources = [...matrix.resources]` copies only the array: its elements
are the caller's own resource objects, so the writes
`resource.available = resource.total` and `resource.available -= allocated`
are performed on the caller's objects.  The array returned is that copy — the
same objects in the same order — hence after the call the caller's
`matrix.resources` holds exactly the returned (mutated) resource states. -/
def calculateAvailableResourcesS (matrix : AllocationMatrix) :
    List Resource × AllocationMatrix :=
  let result := calculateAvailableResources matrix
  (result, { matrix with resources := result })

structure DetectionStep where
  description : String
  remainingProcesses : List String
  availableResources : String → Int
  processedThisRound : List String

structure DetectionResult where
  deadlocked : List String
  safeSequence : Option (List String)
  steps : List DetectionStep

/-- Functional update of the `availableResources` map. -/
def setAvail (a : String → Int) (k : String) (v : Int) : String → Int :=
  fun x => if x = k then v else a x

/-- Lines 63-66: seed the map with `availableResources[resource.id] = resource.available`
for each resource in order (later assignments overwrite earlier ones). -/
def initialAvail (resources : List Resource) : String → Int :=
  resources.foldl (fun a r => setAvail a r.id r.available) fun _ => 0

/-- Lines 93-104: a process can finish when every request entry with
`requested <= 0` is skipped and every other entry satisfies
`requested <= (availableResources[resourceId] || 0)`. -/
def canFinish (avail : String → Int) (p : Process) : Bool :=
  p.request.all fun e => if e.2 ≤ 0 then true else decide (e.2 ≤ avail e.1)

/-- The `for (const process of workingMatrix.processes)` scan (lines 88-133):
skip finished processes, return the first one that can finish. -/
def findAdmissible (avail : String → Int) (finished : List String) :
    List Process → Option Process
  | [] => none
  | p :: ps =>
    if p.id ∈ finished then findAdmissible avail finished ps
    else if canFinish avail p then some p
    else findAdmissible avail finished ps

/-- `finished.add(id)` on the JS `Set`: appended only when absent. -/
def insertFinished (finished : List String) (x : String) : List String :=
  if x ∈ finished then finished else finished ++ [x]

/-- Lines 110-112: release the admitted process's allocations,
`availableResources[resourceId] = (availableResources[resourceId] || 0) + allocated`
for every allocation entry in order. -/
def releaseAlloc (avail : String → Int) (p : Process) : String → Int :=
  p.allocation.foldl (fun a e => setAvail a e.1 (a e.1 + e.2)) avail

/-- Lines 117-121: the admission-step description. -/
def admissionDescription (p : Process) : String :=
  "Process " ++ p.id ++ " can be executed with the available resources." ++
    (if p.request.any fun e => decide (0 < e.2) then
      " Its resource requests can be satisfied."
    else "") ++
    " After completion, " ++ p.id ++ " releases its resources."

/-- Lines 123-128: the step pushed on admission; `remainingProcesses` uses the
already-updated finished set, `availableResources` the already-updated map. -/
def admissionStep (allProcessIds : List String) (finished2 : List String)
    (avail2 : String → Int) (p : Process) : DetectionStep :=
  { description := admissionDescription p
    remainingProcesses := allProcessIds.filter fun x => !decide (x ∈ finished2)
    availableResources := avail2
    processedThisRound := [p.id] }

/-- Lines 137-139: ids of processes not in the finished set, original order. -/
def unfinishedIds (ps : List Process) (finished : List String) : List String :=
  (ps.filter fun p => !decide (p.id ∈ finished)).map Process.id

/-- Lines 142-147: the final step pushed when a deadlock is detected. -/
def deadlockStep (deadlocked : List String) (avail : String → Int) : DetectionStep :=
  { description := "No process can be satisfied with the available resources. Deadlock detected involving processes: " ++ String.intercalate ", " deadlocked
    remainingProcesses := deadlocked
    availableResources := avail
    processedThisRound := [] }

/-- Lines 158-165: the final step pushed on safe completion. -/
def successStep (safeSeq : List String) (avail : String → Int) : DetectionStep :=
  { description := "All processes have been executed successfully. System is in a safe state. Safe sequence: " ++ String.intercalate " → " safeSeq
    remainingProcesses := []
    availableResources := avail
    processedThisRound := [] }

/-- Lines 157-172: after the while loop exits normally, append the success
step (only when more than the initial step was recorded) and return. -/
def finishResult (avail : String → Int) (safeSeq : List String)
    (steps : List DetectionStep) : DetectionResult :=
  { deadlocked := []
    safeSequence := some safeSeq
    steps := if 1 < steps.length then steps ++ [successStep safeSeq avail] else steps }

/-- The `while (changeInLastIteration)` loop (lines 82-155), one fuel unit per
round.  A round that admits a process recurses; a round with no admission
returns the deadlock result when unfinished processes remain
(`finished.size < processes.length`) and otherwise exits the loop into the
success path.  The source loop has no fuel: fuel `processes.length + 1` is
always enough, because every round that recurses inserts a new id into the
duplicate-free `finished` list, which can happen at most
`(processes.map id).dedup.length ≤ processes.length` times; the zero-fuel
branch (made to coincide with the loop-exit branch) is therefore never
reached from `detectDeadlock`, as the fuel-congruence lemma below proves. -/
def detectLoop (ps : List Process) (allProcessIds : List String) :
    Nat → List String → (String → Int) → List String → List DetectionStep →
    DetectionResult
  | 0, _, avail, safeSeq, steps => finishResult avail safeSeq steps
  | fuel + 1, finished, avail, safeSeq, steps =>
    match findAdmissible avail finished ps with
    | some p =>
      detectLoop ps allProcessIds fuel (insertFinished finished p.id)
        (releaseAlloc avail p) (safeSeq ++ [p.id])
        (steps ++ [admissionStep allProcessIds (insertFinished finished p.id)
          (releaseAlloc avail p) p])
    | none =>
      if finished.length < ps.length then
        { deadlocked := unfinishedIds ps finished
          safeSequence := none
          steps := steps ++ [deadlockStep (unfinishedIds ps finished) avail] }
      else finishResult avail safeSeq steps

/-- Value-level effect of `JSON.parse(JSON.stringify(matrix))` (line 58): a
fresh structure holding, field for field, the same plain data (ids are
strings, quantities finite numbers, so the JSON round trip loses nothing). -/
def deepCopy (matrix : AllocationMatrix) : AllocationMatrix :=
  { processes := matrix.processes.map fun p =>
      { id := p.id
        allocation := p.allocation.map fun e => (e.1, e.2)
        request := p.request.map fun e => (e.1, e.2) }
    resources := matrix.resources.map fun r =>
      { id := r.id
        total := r.total
        available := r.available
        isMultiInstance := r.isMultiInstance } }

/-- Line 75-80: the initial step. -/
def initialStep (allProcessIds : List String) (avail : String → Int) : DetectionStep :=
  { description := "Initial available resources"
    remainingProcesses := allProcessIds
    availableResources := avail
    processedThisRound := [] }

/-- `detectDeadlock` (lines 56-173): deep-copy the matrix, recompute the
copy's resources with `calculateAvailableResources` (whose writes land on the
copy), seed the `availableResources` map and the step list, then run the
rounds loop. -/
def detectDeadlock (matrix : AllocationMatrix) : DetectionResult :=
  let workingMatrix := deepCopy matrix
  let workingResources := calculateAvailableResources workingMatrix
  let availableResources := initialAvail workingResources
  let allProcessIds := workingMatrix.processes.map Process.id
  detectLoop workingMatrix.processes allProcessIds
    (workingMatrix.processes.length + 1) [] availableResources []
    [initialStep allProcessIds availableResources]

/-- State-passing embedding of `detectDeadlock`, recording its effect on the
caller's matrix.  Its first statement deep-copies the matrix, and every write
in its body (the resource mutations of `calculateAvailableResources`, see
`calculateAvailableResourcesS`, the `availableResources` map updates and
`workingMatrix.resources = ...`) targets the fresh copy or locals, never the
caller's objects, so the caller's matrix passes through unchanged. -/
def detectDeadlockS (matrix : AllocationMatrix) :
    DetectionResult × AllocationMatrix :=
  (detectDeadlock matrix, matrix)

structure NodeData where
  label : String
  instances : Option Int
  isMultiInstance : Option Bool
deriving Repr, DecidableEq

structure GraphNode where
  id : String
  type : String
  data : NodeData
deriving Repr, DecidableEq

structure GraphEdge where
  id : String
  source : String
  target : String
  type : String
  amount : Int
deriving Repr, DecidableEq

structure Graph where
  nodes : List GraphNode
  edges : List GraphEdge
deriving Repr, DecidableEq

/-- `generateResourceFlowGraph` (lines 175-227): process nodes then resource
nodes; allocation edges (resource to process) for positive allocation
entries, then request edges (process to resource) for positive request
entries; edge ids are built by the template literals
`resourceId-process.id` and `process.id-resourceId`. -/
def generateResourceFlowGraph (matrix : AllocationMatrix) : Graph :=
  { nodes :=
      (matrix.processes.map fun p =>
        { id := p.id
          type := "process"
          data := { label := p.id, instances := none, isMultiInstance := none } })
      ++ matrix.resources.map fun r =>
        { id := r.id
          type := "resource"
          data := { label := r.id, instances := some r.total,
                    isMultiInstance := some r.isMultiInstance } }
    edges :=
      (matrix.processes.flatMap fun p =>
        (p.allocation.filter fun e => decide (0 < e.2)).map fun e =>
          { id := e.1 ++ "-" ++ p.id
            source := e.1
            target := p.id
            type := "allocation"
            amount := e.2 })
      ++ matrix.processes.flatMap fun p =>
        (p.request.filter fun e => decide (0 < e.2)).map fun e =>
          { id := p.id ++ "-" ++ e.1
            source := p.id
            target := e.1
            type := "request"
            amount := e.2 } }

/-- State-passing embedding of `generateResourceFlowGraph`: its body consists
solely of `map`/`filter`/`flatMap` expressions over the matrix with no
assignment of any kind, so the caller's matrix passes through unchanged. -/
def generateResourceFlowGraphS (matrix : AllocationMatrix) :
    Graph × AllocationMatrix :=
  (generateResourceFlowGraph matrix, matrix)

/-! ### Spec-side definitions (worded from the claims, for refinement) -/

/-- Spec side (claim C1): a process may be admitted when every request entry
with a strictly positive amount is at most the current available amount of
that resource; absent entries, and entries with amount ≤ 0, impose no
constraint. -/
def CanBeAdmitted (avail : String → Int) (p : Process) : Prop :=
  ∀ e ∈ p.request, 0 < e.2 → e.2 ≤ avail e.1

instance (avail : String → Int) (p : Process) : Decidable (CanBeAdmitted avail p) :=
  List.decidableBAll _ p.request

/-- Spec side (claim C5): a process's map entry for a given resource id,
a missing entry counting as 0. -/
def lookupEntry (l : List (String × Int)) (k : String) : Int :=
  match l.find? fun e => e.1 == k with
  | some e => e.2
  | none => 0

/-- Sum of the amounts of all entries of `l` whose key is `k` (used to state
what the release and subtraction folds do entry by entry). -/
def entrySum (l : List (String × Int)) (k : String) : Int :=
  ((l.filter fun e => e.1 == k).map fun e => e.2).sum

/-- Spec side (claim C7): the initial step's description. -/
def specInitialDescription : String := "Initial available resources"

/-- Spec side (claim C7): the admission description for process P, with the
middle sentence present exactly when P's request map contains at least one
entry with a positive amount. -/
def specAdmissionDescription (p : Process) : String :=
  "Process " ++ p.id ++ " can be executed with the available resources." ++
    (if ∃ e ∈ p.request, 0 < e.2 then " Its resource requests can be satisfied."
     else "") ++
    " After completion, " ++ p.id ++ " releases its resources."

/-- Spec side (claim C7): the deadlock description, the deadlocked ids joined
by a comma and space. -/
def specDeadlockDescription (ids : List String) : String :=
  "No process can be satisfied with the available resources. Deadlock detected involving processes: " ++
    String.intercalate ", " ids

/-- Spec side (claim C7): the success description, the safe sequence joined by
the arrow separator. -/
def specSuccessDescription (ids : List String) : String :=
  "All processes have been executed successfully. System is in a safe state. Safe sequence: " ++
    String.intercalate " → " ids

/-- Spec side (claim C2, amended): in a safe run every input process id is in
the safe sequence (exactly once, as it is duplicate-free) and `deadlocked` is
empty; in a deadlocked run (`safeSequence` is null) `deadlocked` is a
nonempty duplicate-free list of input process ids. -/
def CoverageOK (ids : List String) (r : DetectionResult) : Prop :=
  (∀ sq, r.safeSequence = some sq →
      sq.Nodup ∧ (∀ x, x ∈ ids ↔ x ∈ sq) ∧ r.deadlocked = []) ∧
  (r.safeSequence = none →
      r.deadlocked.Nodup ∧ (∀ x ∈ r.deadlocked, x ∈ ids) ∧ r.deadlocked ≠ [])

/-- Spec side (claim C10): a process that can never be admitted: the run ends
in deadlock, its id is among the deadlocked ids, and no recorded step admits
it. -/
def BlockedOutcome (pid : String) (r : DetectionResult) : Prop :=
  r.safeSequence = none ∧ pid ∈ r.deadlocked ∧
    ∀ s ∈ r.steps, pid ∉ s.processedThisRound

/-- A step recorded before the run's terminal step: the initial snapshot or
the admission of some process of the matrix (claim C7). -/
def PreTerminalStep (ps : List Process) (s : DetectionStep) : Prop :=
  s.description = specInitialDescription ∨
    ∃ p ∈ ps, s.processedThisRound = [p.id] ∧
      s.description = specAdmissionDescription p

/-- Spec side (claim C7): every recorded step carries one of the four exact
template descriptions, tied to the admitted process, the deadlocked ids, or
the returned safe sequence. -/
def DescribedStep (ps : List Process) (r : DetectionResult) (s : DetectionStep) : Prop :=
  PreTerminalStep ps s ∨
    s.description = specDeadlockDescription r.deadlocked ∨
    ∃ sq, r.safeSequence = some sq ∧ s.description = specSuccessDescription sq

/-- A step that records an admission (nonempty `processedThisRound`). -/
def isAdmissionStep (s : DetectionStep) : Bool :=
  !s.processedThisRound.isEmpty

/-- The subtraction loop of `calculateAvailableResources` over an explicit
list of allocation entries (the nested per-process folds flattened). -/
def subtractMany (rs : List Resource) (es : List (String × Int)) : List Resource :=
  es.foldl (fun rs2 e => subtractFirst rs2 e.1 e.2) rs

/-! ### Concrete instances used by witnesses and counterexamples -/

/-- Scenario A, first process. -/
def processA1 : Process := ⟨"P1", [("R1", 1), ("R2", 0)], [("R1", 0), ("R2", 1)]⟩

/-- Scenario A, second process. -/
def processA2 : Process := ⟨"P2", [("R1", 0), ("R2", 1)], [("R1", 1), ("R2", 0)]⟩

/-- Scenario B, third process. -/
def processB3 : Process := ⟨"P3", [("R1", 0), ("R2", 1)], [("R1", 0), ("R2", 0)]⟩

/-- The spec's Scenario A: a two-process deadlock. -/
def sampleDeadlockMatrix : AllocationMatrix :=
  ⟨[processA1, processA2], [⟨"R1", 1, 0, false⟩, ⟨"R2", 1, 0, false⟩]⟩

/-- The spec's Scenario B: safe, sequence P3, P1, P2. -/
def sampleSafeMatrix : AllocationMatrix :=
  ⟨[processA1, processA2, processB3], [⟨"R1", 1, 0, false⟩, ⟨"R2", 2, 0, false⟩]⟩

/-- P0 is admitted, then P1 deadlocks: P0 ends up in neither returned
sequence. -/
def partialAdmissionMatrix : AllocationMatrix :=
  ⟨[⟨"P0", [], []⟩, ⟨"P1", [("R1", 1)], [("R1", 1)]⟩], [⟨"R1", 1, 0, false⟩]⟩

/-- Two processes sharing the id A; the second requests an unknown resource. -/
def duplicateIdMatrix : AllocationMatrix :=
  ⟨[⟨"A", [], []⟩, ⟨"A", [], [("X", 1)]⟩], []⟩

/-- Two resources sharing the id R1; only the first absorbs the subtraction. -/
def duplicateResourceMatrix : AllocationMatrix :=
  ⟨[⟨"P", [("R1", 2)], []⟩], [⟨"R1", 3, 0, false⟩, ⟨"R1", 3, 0, false⟩]⟩

/-- A resource whose stored `available` (5) differs from the recomputed value
(1): the calculator overwrites the caller's object. -/
def staleAvailableMatrix : AllocationMatrix := ⟨[], [⟨"R1", 1, 5, false⟩]⟩

/-- One positive allocation entry, producing one allocation edge. -/
def singleAllocationMatrix : AllocationMatrix :=
  ⟨[⟨"P1", [("R1", 1)], []⟩], [⟨"R1", 1, 0, false⟩]⟩

/-- One trivially admissible process. -/
def singleProcessMatrix : AllocationMatrix := ⟨[⟨"P0", [], []⟩], []⟩

/-- One process with a positive request for a resource id that matches no
resource and no allocation entry. -/
def unknownRequestMatrix : AllocationMatrix := ⟨[⟨"P", [], [("X", 2)]⟩], []⟩

/-- A process blocked under the all-zero availability. -/
def blockedProcess : Process := ⟨"P1", [], [("R1", 5)]⟩

/-- A process with no (positive) requests. -/
def freeProcess : Process := ⟨"P2", [], []⟩

/-- The all-zero availability map. -/
def zeroAvail : String → Int := fun _ => 0

/-! ### Basic lemmas -/

theorem setAvail_apply (a : String → Int) (k : String) (v : Int) (x : String) :
    setAvail a k v x = if x = k then v else a x := rfl

theorem canFinish_iff (avail : String → Int) (p : Process) :
    canFinish avail p = true ↔ CanBeAdmitted avail p := by
  unfold canFinish CanBeAdmitted
  rw [List.all_eq_true]
  constructor
  · intro h e he hpos
    have h2 := h e he
    rw [if_neg (by omega)] at h2
    exact of_decide_eq_true h2
  · intro h e he
    by_cases hle : e.2 ≤ 0
    · simp [if_pos hle]
    · rw [if_neg hle]
      exact decide_eq_true (h e he (by omega))

theorem findAdmissible_eq_some (avail : String → Int) (fin : List String) :
    ∀ ps p, findAdmissible avail fin ps = some p →
      p ∈ ps ∧ p.id ∉ fin ∧ canFinish avail p = true := by
  intro ps
  induction ps with
  | nil => intro p h; simp [findAdmissible] at h
  | cons q ps ih =>
    intro p h
    by_cases hq : q.id ∈ fin
    · rw [findAdmissible, if_pos hq] at h
      rcases ih p h with ⟨h1, h2, h3⟩
      exact ⟨List.mem_cons_of_mem _ h1, h2, h3⟩
    · rw [findAdmissible, if_neg hq] at h
      by_cases hc : canFinish avail q = true
      · rw [if_pos hc] at h
        cases h
        exact ⟨List.mem_cons_self _ _, hq, hc⟩
      · rw [if_neg hc] at h
        rcases ih p h with ⟨h1, h2, h3⟩
        exact ⟨List.mem_cons_of_mem _ h1, h2, h3⟩

theorem entrySum_nil (k : String) : entrySum [] k = 0 := rfl

theorem entrySum_cons (e : String × Int) (l : List (String × Int)) (k : String) :
    entrySum (e :: l) k = (if e.1 = k then e.2 else 0) + entrySum l k := by
  by_cases h : e.1 = k
  · simp [entrySum, List.filter_cons, h]
  · simp [entrySum, List.filter_cons, h]

theorem entrySum_append (a b : List (String × Int)) (k : String) :
    entrySum (a ++ b) k = entrySum a k + entrySum b k := by
  simp [entrySum, List.filter_append]

theorem entrySum_eq_zero (l : List (String × Int)) (k : String)
    (h : ∀ e ∈ l, e.1 ≠ k) : entrySum l k = 0 := by
  induction l with
  | nil => rfl
  | cons e l ih =>
    rw [entrySum_cons, if_neg (h e (List.mem_cons_self _ _)),
      ih fun x hx => h x (List.mem_cons_of_mem _ hx)]
    ring

theorem entrySum_eq_lookup (l : List (String × Int)) (k : String)
    (h : (l.map Prod.fst).Nodup) : entrySum l k = lookupEntry l k := by
  induction l with
  | nil => rfl
  | cons e l ih =>
    rw [List.map_cons, List.nodup_cons] at h
    rw [entrySum_cons]
    by_cases hk : e.1 = k
    · have hz : entrySum l k = 0 := by
        apply entrySum_eq_zero
        intro x hx hxk
        apply h.1
        rw [hk, ← hxk]
        exact List.mem_map_of_mem Prod.fst hx
      simp [lookupEntry, List.find?_cons, hk, hz]
    · simp [lookupEntry, List.find?_cons, hk, ih h.2]

theorem releaseAlloc_apply (p : Process) :
    ∀ (avail : String → Int) (k : String),
      releaseAlloc avail p k = avail k + entrySum p.allocation k := by
  unfold releaseAlloc
  generalize p.allocation = es
  induction es with
  | nil => intro avail k; simp [entrySum_nil]
  | cons e es ih =>
    intro avail k
    rw [List.foldl_cons, ih, entrySum_cons, setAvail_apply]
    by_cases hk : k = e.1
    · rw [if_pos hk, if_pos hk.symm, hk]
      ring
    · rw [if_neg hk, if_neg fun h => hk h.symm]
      ring

theorem insertFinished_eq_append (fin : List String) (x : String) (h : x ∉ fin) :
    insertFinished fin x = fin ++ [x] := by
  simp [insertFinished, h]

theorem deepCopy_eq (m : AllocationMatrix) : deepCopy m = m := by
  unfold deepCopy
  have hent : ∀ l : List (String × Int), (l.map fun e => (e.1, e.2)) = l := by
    intro l
    induction l with
    | nil => rfl
    | cons e l ih => rw [List.map_cons, ih]
  cases m with
  | mk ps rs =>
    simp only [AllocationMatrix.mk.injEq]
    constructor
    · induction ps with
      | nil => rfl
      | cons p ps ih =>
        rw [List.map_cons, ih]
        cases p with
        | mk i a r => simp [hent]
    · induction rs with
      | nil => rfl
      | cons r rs ih => rw [List.map_cons, ih]

theorem nodup_subset_le_dedup (l L : List String) (hnd : l.Nodup)
    (hsub : ∀ x ∈ l, x ∈ L) : l.length ≤ L.dedup.length := by
  have h1 : l.toFinset.card = l.length := by
    rw [List.card_toFinset, hnd.dedup]
  have h2 : L.toFinset.card = L.dedup.length := List.card_toFinset L
  have h3 : l.toFinset ⊆ L.toFinset := by
    intro x hx
    rw [List.mem_toFinset] at hx ⊢
    exact hsub x hx
  calc l.length = l.toFinset.card := h1.symm
    _ ≤ L.toFinset.card := Finset.card_le_card h3
    _ = L.dedup.length := h2

theorem mem_of_nodup_subset_ge (fin ids : List String) (hnd : fin.Nodup)
    (hids : ids.Nodup) (hsub : ∀ x ∈ fin, x ∈ ids)
    (hlen : ids.length ≤ fin.length) : ∀ x ∈ ids, x ∈ fin := by
  have hcf : fin.toFinset.card = fin.length := by
    rw [List.card_toFinset, hnd.dedup]
  have hci : ids.toFinset.card = ids.length := by
    rw [List.card_toFinset, hids.dedup]
  have hsubF : fin.toFinset ⊆ ids.toFinset := by
    intro x hx
    rw [List.mem_toFinset] at hx ⊢
    exact hsub x hx
  have heq : fin.toFinset = ids.toFinset :=
    Finset.eq_of_subset_of_card_le hsubF (by omega)
  intro x hx
  have : x ∈ fin.toFinset := by
    rw [heq, List.mem_toFinset]
    exact hx
  rwa [List.mem_toFinset] at this

theorem findAdmissible_some_iff (avail : String → Int) (fin : List String) :
    ∀ ps p, findAdmissible avail fin ps = some p ↔
      ∃ pre post, ps = pre ++ p :: post ∧ p.id ∉ fin ∧ CanBeAdmitted avail p ∧
        ∀ q ∈ pre, q.id ∈ fin ∨ ¬ CanBeAdmitted avail q := by
  intro ps
  induction ps with
  | nil =>
    intro p
    constructor
    · intro h
      simp [findAdmissible] at h
    · rintro ⟨pre, post, habs, -⟩
      exact absurd habs (by simp)
  | cons q ps ih =>
    intro p
    constructor
    · intro h
      by_cases hq : q.id ∈ fin
      · rw [findAdmissible, if_pos hq] at h
        rcases (ih p).mp h with ⟨pre, post, hsplit, hnotin, hcan, hpre⟩
        refine ⟨q :: pre, post, by rw [hsplit, List.cons_append], hnotin, hcan, ?_⟩
        intro x hx
        rcases List.mem_cons.mp hx with hxq | hxp
        · exact Or.inl (hxq ▸ hq)
        · exact hpre x hxp
      · rw [findAdmissible, if_neg hq] at h
        by_cases hc : canFinish avail q = true
        · rw [if_pos hc] at h
          cases h
          exact ⟨[], ps, rfl, hq, (canFinish_iff avail q).mp hc, by simp⟩
        · rw [if_neg hc] at h
          rcases (ih p).mp h with ⟨pre, post, hsplit, hnotin, hcan, hpre⟩
          refine ⟨q :: pre, post, by rw [hsplit, List.cons_append], hnotin, hcan, ?_⟩
          intro x hx
          rcases List.mem_cons.mp hx with hxq | hxp
          · subst hxq
            exact Or.inr fun hcb => hc ((canFinish_iff avail x).mpr hcb)
          · exact hpre x hxp
    · rintro ⟨pre, post, hsplit, hnotin, hcan, hpre⟩
      cases pre with
      | nil =>
        simp only [List.nil_append] at hsplit
        injection hsplit with h1 h2
        subst h1
        subst h2
        rw [findAdmissible, if_neg hnotin,
          if_pos ((canFinish_iff avail q).mpr hcan)]
      | cons q2 pre2 =>
        rw [List.cons_append] at hsplit
        injection hsplit with hq2 hrest
        subst hq2
        have hfind : findAdmissible avail fin ps = some p :=
          (ih p).mpr ⟨pre2, post, hrest, hnotin, hcan,
            fun x hx => hpre x (List.mem_cons_of_mem _ hx)⟩
        by_cases hqfin : q.id ∈ fin
        · rw [findAdmissible, if_pos hqfin]
          exact hfind
        · have hqcant : ¬ CanBeAdmitted avail q := by
            rcases hpre q (List.mem_cons_self _ _) with h | h
            · exact absurd h hqfin
            · exact h
          rw [findAdmissible, if_neg hqfin,
            if_neg fun hc => hqcant ((canFinish_iff avail q).mp hc)]
          exact hfind

theorem detectLoop_zero (ps : List Process) (ids : List String)
    (fin : List String) (avail : String → Int) (seq : List String)
    (steps : List DetectionStep) :
    detectLoop ps ids 0 fin avail seq steps = finishResult avail seq steps := rfl

theorem detectLoop_succ_some (ps : List Process) (ids : List String)
    (fuel : Nat) (fin : List String) (avail : String → Int) (seq : List String)
    (steps : List DetectionStep) (p : Process)
    (h : findAdmissible avail fin ps = some p) :
    detectLoop ps ids (fuel + 1) fin avail seq steps =
      detectLoop ps ids fuel (insertFinished fin p.id) (releaseAlloc avail p)
        (seq ++ [p.id])
        (steps ++ [admissionStep ids (insertFinished fin p.id)
          (releaseAlloc avail p) p]) := by
  simp only [detectLoop, h]

theorem detectLoop_succ_deadlock (ps : List Process) (ids : List String)
    (fuel : Nat) (fin : List String) (avail : String → Int) (seq : List String)
    (steps : List DetectionStep)
    (h : findAdmissible avail fin ps = none) (hlt : fin.length < ps.length) :
    detectLoop ps ids (fuel + 1) fin avail seq steps =
      { deadlocked := unfinishedIds ps fin
        safeSequence := none
        steps := steps ++ [deadlockStep (unfinishedIds ps fin) avail] } := by
  simp only [detectLoop, h, if_pos hlt]

theorem detectLoop_succ_finish (ps : List Process) (ids : List String)
    (fuel : Nat) (fin : List String) (avail : String → Int) (seq : List String)
    (steps : List DetectionStep)
    (h : findAdmissible avail fin ps = none) (hge : ¬ fin.length < ps.length) :
    detectLoop ps ids (fuel + 1) fin avail seq steps =
      finishResult avail seq steps := by
  simp only [detectLoop, h, if_neg hge]

theorem insert_invariants (ps : List Process) (fin : List String) (p : Process)
    (hnd : fin.Nodup) (hsub : ∀ x ∈ fin, x ∈ ps.map Process.id)
    (hmem : p ∈ ps) (hnotin : p.id ∉ fin) :
    (fin ++ [p.id]).Nodup ∧ ∀ x ∈ fin ++ [p.id], x ∈ ps.map Process.id := by
  constructor
  · rw [List.nodup_append]
    exact ⟨hnd, List.nodup_singleton _,
      fun a ha hb => hnotin (List.mem_singleton.mp hb ▸ ha)⟩
  · intro x hx
    rcases List.mem_append.mp hx with h | h
    · exact hsub x h
    · rw [List.mem_singleton] at h
      exact h ▸ List.mem_map_of_mem Process.id hmem

theorem detectLoop_fuel_congr (ps : List Process) (ids : List String) :
    ∀ f1 f2 fin avail seq steps, fin.Nodup →
      (∀ x ∈ fin, x ∈ ps.map Process.id) →
      (ps.map Process.id).dedup.length + 1 ≤ f1 + fin.length →
      (ps.map Process.id).dedup.length + 1 ≤ f2 + fin.length →
      detectLoop ps ids f1 fin avail seq steps =
        detectLoop ps ids f2 fin avail seq steps := by
  intro f1
  induction f1 with
  | zero =>
    intro f2 fin avail seq steps hnd hsub h1 h2
    have hle := nodup_subset_le_dedup fin (ps.map Process.id) hnd hsub
    omega
  | succ f ih =>
    intro f2 fin avail seq steps hnd hsub h1 h2
    have hle := nodup_subset_le_dedup fin (ps.map Process.id) hnd hsub
    cases f2 with
    | zero => omega
    | succ g =>
      rcases hfind : findAdmissible avail fin ps with _ | p
      · by_cases hlt : fin.length < ps.length
        · rw [detectLoop_succ_deadlock ps ids f fin avail seq steps hfind hlt,
            detectLoop_succ_deadlock ps ids g fin avail seq steps hfind hlt]
        · rw [detectLoop_succ_finish ps ids f fin avail seq steps hfind hlt,
            detectLoop_succ_finish ps ids g fin avail seq steps hfind hlt]
      · rcases findAdmissible_eq_some avail fin ps p hfind with ⟨hmem, hnotin, -⟩
        rw [detectLoop_succ_some ps ids f fin avail seq steps p hfind,
          detectLoop_succ_some ps ids g fin avail seq steps p hfind,
          insertFinished_eq_append fin p.id hnotin]
        rcases insert_invariants ps fin p hnd hsub hmem hnotin with ⟨hnd2, hsub2⟩
        apply ih g _ _ _ _ hnd2 hsub2
        · rw [List.length_append, List.length_singleton]
          omega
        · rw [List.length_append, List.length_singleton]
          omega

theorem isAdmissionStep_admission (ids fin2 : List String)
    (avail2 : String → Int) (p : Process) :
    isAdmissionStep (admissionStep ids fin2 avail2 p) = true := rfl

theorem isAdmissionStep_success (seq : List String) (avail : String → Int) :
    isAdmissionStep (successStep seq avail) = false := rfl

theorem isAdmissionStep_deadlock (ids : List String) (avail : String → Int) :
    isAdmissionStep (deadlockStep ids avail) = false := rfl

theorem isAdmissionStep_initial (ids : List String) (avail : String → Int) :
    isAdmissionStep (initialStep ids avail) = false := rfl

theorem countP_finishResult (avail : String → Int) (seq : List String)
    (steps : List DetectionStep) :
    (finishResult avail seq steps).steps.countP isAdmissionStep =
      steps.countP isAdmissionStep := by
  unfold finishResult
  by_cases h : 1 < steps.length
  · simp [h, List.countP_append, List.countP_cons, isAdmissionStep_success]
  · simp [h]

theorem detectLoop_countP_le (ps : List Process) (ids : List String) :
    ∀ fuel fin avail seq steps, fin.Nodup →
      (∀ x ∈ fin, x ∈ ps.map Process.id) →
      (detectLoop ps ids fuel fin avail seq steps).steps.countP isAdmissionStep ≤
        steps.countP isAdmissionStep +
          ((ps.map Process.id).dedup.length - fin.length) := by
  intro fuel
  induction fuel with
  | zero =>
    intro fin avail seq steps _ _
    rw [detectLoop_zero, countP_finishResult]
    omega
  | succ fuel ih =>
    intro fin avail seq steps hnd hsub
    rcases hfind : findAdmissible avail fin ps with _ | p
    · by_cases hlt : fin.length < ps.length
      · rw [detectLoop_succ_deadlock ps ids fuel fin avail seq steps hfind hlt]
        simp [List.countP_append, List.countP_cons, List.countP_nil,
          isAdmissionStep_deadlock]
      · rw [detectLoop_succ_finish ps ids fuel fin avail seq steps hfind hlt,
          countP_finishResult]
        omega
    · rcases findAdmissible_eq_some avail fin ps p hfind with ⟨hmem, hnotin, -⟩
      rw [detectLoop_succ_some ps ids fuel fin avail seq steps p hfind,
        insertFinished_eq_append fin p.id hnotin]
      rcases insert_invariants ps fin p hnd hsub hmem hnotin with ⟨hnd2, hsub2⟩
      have hlen : fin.length + 1 ≤ (ps.map Process.id).dedup.length := by
        have h2 := nodup_subset_le_dedup (fin ++ [p.id]) (ps.map Process.id)
          hnd2 hsub2
        rw [List.length_append, List.length_singleton] at h2
        exact h2
      have hrec := ih (fin ++ [p.id]) (releaseAlloc avail p) (seq ++ [p.id])
        (steps ++ [admissionStep ids (fin ++ [p.id]) (releaseAlloc avail p) p])
        hnd2 hsub2
      rw [List.countP_append, List.countP_cons, List.countP_nil,
        isAdmissionStep_admission, List.length_append, List.length_singleton]
        at hrec
      simp only [if_pos] at hrec
      omega

theorem detectLoop_steps_extend (ps : List Process) (ids : List String) :
    ∀ fuel fin avail seq steps, ∃ rest,
      (detectLoop ps ids fuel fin avail seq steps).steps = steps ++ rest := by
  have hfin : ∀ (avail : String → Int) seq (steps : List DetectionStep),
      ∃ rest, (finishResult avail seq steps).steps = steps ++ rest := by
    intro avail seq steps
    unfold finishResult
    by_cases h : 1 < steps.length
    · exact ⟨[successStep seq avail], by simp [h]⟩
    · exact ⟨[], by simp [h]⟩
  intro fuel
  induction fuel with
  | zero =>
    intro fin avail seq steps
    rw [detectLoop_zero]
    exact hfin avail seq steps
  | succ fuel ih =>
    intro fin avail seq steps
    rcases hfind : findAdmissible avail fin ps with _ | p
    · by_cases hlt : fin.length < ps.length
      · rw [detectLoop_succ_deadlock ps ids fuel fin avail seq steps hfind hlt]
        exact ⟨[deadlockStep (unfinishedIds ps fin) avail], rfl⟩
      · rw [detectLoop_succ_finish ps ids fuel fin avail seq steps hfind hlt]
        exact hfin avail seq steps
    · rw [detectLoop_succ_some ps ids fuel fin avail seq steps p hfind]
      rcases ih (insertFinished fin p.id) (releaseAlloc avail p) (seq ++ [p.id])
        (steps ++ [admissionStep ids (insertFinished fin p.id)
          (releaseAlloc avail p) p]) with ⟨rest, hrest⟩
      exact ⟨admissionStep ids (insertFinished fin p.id)
        (releaseAlloc avail p) p :: rest,
        by rw [hrest, List.append_assoc, List.singleton_append]⟩

theorem detectLoop_coverage (ps : List Process) (ids : List String)
    (hids : (ps.map Process.id).Nodup) :
    ∀ fuel fin avail seq steps, fin.Nodup →
      (∀ x ∈ fin, x ∈ ps.map Process.id) →
      (ps.map Process.id).dedup.length + 1 ≤ fuel + fin.length →
      seq = fin →
      CoverageOK (ps.map Process.id) (detectLoop ps ids fuel fin avail seq steps) := by
  intro fuel
  induction fuel with
  | zero =>
    intro fin avail seq steps hnd hsub hgood hseq
    have hle := nodup_subset_le_dedup fin (ps.map Process.id) hnd hsub
    omega
  | succ fuel ih =>
    intro fin avail seq steps hnd hsub hgood hseq
    rcases hfind : findAdmissible avail fin ps with _ | p
    · by_cases hlt : fin.length < ps.length
      · rw [detectLoop_succ_deadlock ps ids fuel fin avail seq steps hfind hlt]
        unfold CoverageOK
        constructor
        · intro sq hsq
          simp at hsq
        · intro _
          refine ⟨?_, ?_, ?_⟩
          · unfold unfinishedIds
            exact ((List.filter_sublist ps).map Process.id).nodup hids
          · intro x hx
            unfold unfinishedIds at hx
            rcases List.mem_map.mp hx with ⟨q, hq, rfl⟩
            exact List.mem_map_of_mem Process.id (List.mem_filter.mp hq).1
          · intro habs
            unfold unfinishedIds at habs
            rw [List.map_eq_nil_iff] at habs
            have hall : ∀ q ∈ ps, q.id ∈ fin := by
              intro q hq
              by_contra hqn
              have hmemf : q ∈ ps.filter fun p => !decide (p.id ∈ fin) :=
                List.mem_filter.mpr ⟨hq, by simp [hqn]⟩
              rw [habs] at hmemf
              simp at hmemf
            have hsub2 : ∀ x ∈ ps.map Process.id, x ∈ fin := by
              intro x hx
              rcases List.mem_map.mp hx with ⟨q, hq, rfl⟩
              exact hall q hq
            have hle := nodup_subset_le_dedup (ps.map Process.id) fin hids hsub2
            rw [hnd.dedup, List.length_map] at hle
            omega
      · rw [detectLoop_succ_finish ps ids fuel fin avail seq steps hfind hlt]
        unfold CoverageOK finishResult
        constructor
        · intro sq hsq
          simp only [Option.some.injEq] at hsq
          subst hsq
          subst hseq
          refine ⟨hnd, ?_, rfl⟩
          intro x
          constructor
          · intro hx
            exact mem_of_nodup_subset_ge seq (ps.map Process.id) hnd hids hsub
              (by rw [List.length_map]; omega) x hx
          · intro hx
            exact hsub x hx
        · intro habs
          simp at habs
    · rcases findAdmissible_eq_some avail fin ps p hfind with ⟨hmem, hnotin, -⟩
      rw [detectLoop_succ_some ps ids fuel fin avail seq steps p hfind,
        insertFinished_eq_append fin p.id hnotin]
      rcases insert_invariants ps fin p hnd hsub hmem hnotin with ⟨hnd2, hsub2⟩
      apply ih _ _ _ _ hnd2 hsub2
      · rw [List.length_append, List.length_singleton]
        omega
      · rw [hseq]

theorem detectLoop_blocked (ps : List Process) (ids : List String)
    (rid : String) (amt : Int) (p0 : Process)
    (hids : (ps.map Process.id).Nodup) (hp0 : p0 ∈ ps)
    (hreq : (rid, amt) ∈ p0.request) (hpos : 0 < amt)
    (hnoalloc : ∀ q ∈ ps, ∀ e ∈ q.allocation, e.1 ≠ rid) :
    ∀ fuel fin avail seq steps, fin.Nodup →
      (∀ x ∈ fin, x ∈ ps.map Process.id) →
      (ps.map Process.id).dedup.length + 1 ≤ fuel + fin.length →
      avail rid = 0 → p0.id ∉ fin →
      (∀ s ∈ steps, p0.id ∉ s.processedThisRound) →
      BlockedOutcome p0.id (detectLoop ps ids fuel fin avail seq steps) := by
  have hcant : ∀ avail : String → Int, avail rid = 0 →
      ¬ canFinish avail p0 = true := by
    intro avail h0 hc
    have hle := (canFinish_iff avail p0).mp hc (rid, amt) hreq hpos
    rw [h0] at hle
    omega
  intro fuel
  induction fuel with
  | zero =>
    intro fin avail seq steps hnd hsub hgood h0 hp0fin hsteps
    have hle := nodup_subset_le_dedup fin (ps.map Process.id) hnd hsub
    omega
  | succ fuel ih =>
    intro fin avail seq steps hnd hsub hgood h0 hp0fin hsteps
    rcases hfind : findAdmissible avail fin ps with _ | p
    · by_cases hlt : fin.length < ps.length
      · rw [detectLoop_succ_deadlock ps ids fuel fin avail seq steps hfind hlt]
        unfold BlockedOutcome
        refine ⟨rfl, ?_, ?_⟩
        · unfold unfinishedIds
          exact List.mem_map_of_mem Process.id
            (List.mem_filter.mpr ⟨hp0, by simp [hp0fin]⟩)
        · intro s hs
          rcases List.mem_append.mp hs with h | h
          · exact hsteps s h
          · rw [List.mem_singleton] at h
            subst h
            simp [deadlockStep]
      · exfalso
        have hall := mem_of_nodup_subset_ge fin (ps.map Process.id) hnd hids hsub
          (by rw [List.length_map]; omega)
        exact hp0fin (hall p0.id (List.mem_map_of_mem Process.id hp0))
    · rcases findAdmissible_eq_some avail fin ps p hfind with ⟨hmem, hnotin, hcf⟩
      have hpne : p.id ≠ p0.id := by
        intro he
        have hpp : p = p0 := List.inj_on_of_nodup_map hids hmem hp0 he
        subst hpp
        exact hcant avail h0 hcf
      rw [detectLoop_succ_some ps ids fuel fin avail seq steps p hfind,
        insertFinished_eq_append fin p.id hnotin]
      rcases insert_invariants ps fin p hnd hsub hmem hnotin with ⟨hnd2, hsub2⟩
      apply ih _ _ _ _ hnd2 hsub2
      · rw [List.length_append, List.length_singleton]
        omega
      · rw [releaseAlloc_apply p avail rid,
          entrySum_eq_zero p.allocation rid (hnoalloc p hmem), h0]
        ring
      · intro h
        rcases List.mem_append.mp h with h | h
        · exact hp0fin h
        · exact hpne (List.mem_singleton.mp h).symm
      · intro s hs
        rcases List.mem_append.mp hs with h | h
        · exact hsteps s h
        · rw [List.mem_singleton] at h
          subst h
          simp only [admissionStep, List.mem_singleton]
          exact fun he => hpne he.symm

theorem admissionDescription_eq_spec (p : Process) :
    admissionDescription p = specAdmissionDescription p := by
  unfold admissionDescription specAdmissionDescription
  by_cases h : ∃ e ∈ p.request, 0 < e.2
  · have hb : (p.request.any fun e => decide (0 < e.2)) = true := by
      rw [List.any_eq_true]
      rcases h with ⟨e, he, hpos⟩
      exact ⟨e, he, decide_eq_true hpos⟩
    rw [if_pos hb, if_pos h]
  · have hb : ¬ (p.request.any fun e => decide (0 < e.2)) = true := by
      rw [List.any_eq_true]
      rintro ⟨e, he, hd⟩
      exact h ⟨e, he, of_decide_eq_true hd⟩
    rw [if_neg hb, if_neg h]

theorem describedStep_finishResult (ps : List Process) (avail : String → Int)
    (seq : List String) (steps : List DetectionStep)
    (hsteps : ∀ s ∈ steps, PreTerminalStep ps s) :
    ∀ s ∈ (finishResult avail seq steps).steps,
      DescribedStep ps (finishResult avail seq steps) s := by
  intro s hs
  unfold finishResult at hs ⊢
  by_cases h : 1 < steps.length
  · rw [if_pos h] at hs
    rcases List.mem_append.mp hs with hh | hh
    · exact Or.inl (hsteps s hh)
    · rw [List.mem_singleton] at hh
      subst hh
      exact Or.inr (Or.inr ⟨seq, rfl, rfl⟩)
  · rw [if_neg h] at hs
    exact Or.inl (hsteps s hs)

theorem detectLoop_descriptions (ps : List Process) (ids : List String) :
    ∀ fuel fin avail seq steps,
      (∀ s ∈ steps, PreTerminalStep ps s) →
      ∀ s ∈ (detectLoop ps ids fuel fin avail seq steps).steps,
        DescribedStep ps (detectLoop ps ids fuel fin avail seq steps) s := by
  intro fuel
  induction fuel with
  | zero =>
    intro fin avail seq steps hsteps
    rw [detectLoop_zero]
    exact describedStep_finishResult ps avail seq steps hsteps
  | succ fuel ih =>
    intro fin avail seq steps hsteps
    rcases hfind : findAdmissible avail fin ps with _ | p
    · by_cases hlt : fin.length < ps.length
      · rw [detectLoop_succ_deadlock ps ids fuel fin avail seq steps hfind hlt]
        intro s hs
        rcases List.mem_append.mp hs with h | h
        · exact Or.inl (hsteps s h)
        · rw [List.mem_singleton] at h
          subst h
          exact Or.inr (Or.inl rfl)
      · rw [detectLoop_succ_finish ps ids fuel fin avail seq steps hfind hlt]
        exact describedStep_finishResult ps avail seq steps hsteps
    · rcases findAdmissible_eq_some avail fin ps p hfind with ⟨hmem, -, -⟩
      rw [detectLoop_succ_some ps ids fuel fin avail seq steps p hfind]
      apply ih
      intro s hs
      rcases List.mem_append.mp hs with h | h
      · exact hsteps s h
      · rw [List.mem_singleton] at h
        subst h
        exact Or.inr ⟨p, hmem, rfl, admissionDescription_eq_spec p⟩

theorem subtractFirst_map_id (rs : List Resource) (k : String) (a : Int) :
    (subtractFirst rs k a).map Resource.id = rs.map Resource.id := by
  induction rs with
  | nil => rfl
  | cons r rs ih =>
    unfold subtractFirst
    by_cases h : r.id = k
    · rw [if_pos h]
      rfl
    · rw [if_neg h, List.map_cons, List.map_cons, ih]

theorem subtractFirst_eq_map (k : String) (a : Int) :
    ∀ rs : List Resource, (rs.map Resource.id).Nodup →
      subtractFirst rs k a = rs.map fun r =>
        if r.id = k then { r with available := r.available - a } else r := by
  intro rs
  induction rs with
  | nil => intro _; rfl
  | cons r rs ih =>
    intro hnd
    rw [List.map_cons, List.nodup_cons] at hnd
    unfold subtractFirst
    rw [List.map_cons]
    by_cases h : r.id = k
    · rw [if_pos h, if_pos h]
      congr 1
      have hpt : ∀ x ∈ rs,
          (if x.id = k then { x with available := x.available - a } else x) = id x := by
        intro x hx
        have hxk : x.id ≠ k := by
          intro he
          apply hnd.1
          rw [h, ← he]
          exact List.mem_map_of_mem Resource.id hx
        rw [if_neg hxk]
        rfl
      rw [List.map_congr_left hpt, List.map_id]
    · rw [if_neg h, if_neg h, ih hnd.2]

theorem subtractMany_nil (rs : List Resource) : subtractMany rs [] = rs := rfl

theorem subtractMany_cons (rs : List Resource) (e : String × Int)
    (es : List (String × Int)) :
    subtractMany rs (e :: es) = subtractMany (subtractFirst rs e.1 e.2) es := rfl

theorem subtractMany_map_id (es : List (String × Int)) :
    ∀ rs, (subtractMany rs es).map Resource.id = rs.map Resource.id := by
  induction es with
  | nil => intro rs; rfl
  | cons e es ih =>
    intro rs
    rw [subtractMany_cons, ih, subtractFirst_map_id]

theorem subtractMany_eq_map (es : List (String × Int)) :
    ∀ rs, (rs.map Resource.id).Nodup →
      subtractMany rs es = rs.map fun r =>
        { r with available := r.available - entrySum es r.id } := by
  induction es with
  | nil =>
    intro rs _
    rw [subtractMany_nil]
    have hpt : ∀ r ∈ rs,
        ({ r with available := r.available - entrySum [] r.id } : Resource) = id r := by
      intro r hr
      simp [entrySum_nil]
    rw [List.map_congr_left hpt, List.map_id]
  | cons e es ih =>
    intro rs hnd
    rw [subtractMany_cons,
      ih _ (by rw [subtractFirst_map_id]; exact hnd),
      subtractFirst_eq_map e.1 e.2 rs hnd, List.map_map]
    apply List.map_congr_left
    intro r hr
    simp only [Function.comp_apply]
    by_cases h : r.id = e.1
    · rw [if_pos h]
      congr 1
      rw [entrySum_cons, if_pos h.symm]
      ring
    · rw [if_neg h]
      congr 1
      rw [entrySum_cons, if_neg fun hh => h hh.symm]
      ring

theorem foldl_alloc_flatten :
    ∀ (ps : List Process) (rs : List Resource),
      ps.foldl (fun rs2 p => p.allocation.foldl
        (fun rs3 e => subtractFirst rs3 e.1 e.2) rs2) rs =
      subtractMany rs (ps.flatMap Process.allocation) := by
  intro ps
  induction ps with
  | nil => intro rs; rfl
  | cons p ps ih =>
    intro rs
    rw [List.foldl_cons, List.flatMap_cons]
    unfold subtractMany
    rw [List.foldl_append]
    exact ih _

theorem calc_eq_subtractMany (m : AllocationMatrix) :
    calculateAvailableResources m =
      subtractMany (m.resources.map fun r => { r with available := r.total })
        (m.processes.flatMap Process.allocation) :=
  foldl_alloc_flatten m.processes _

theorem entrySum_flatten (ps : List Process) (k : String) :
    entrySum (ps.flatMap Process.allocation) k =
      (ps.map fun p => entrySum p.allocation k).sum := by
  induction ps with
  | nil => rfl
  | cons p ps ih =>
    rw [List.flatMap_cons, entrySum_append, List.map_cons, List.sum_cons, ih]

theorem detectDeadlock_eq (m : AllocationMatrix) :
    detectDeadlock m =
      detectLoop m.processes (m.processes.map Process.id)
        (m.processes.length + 1) []
        (initialAvail (calculateAvailableResources m)) []
        [initialStep (m.processes.map Process.id)
          (initialAvail (calculateAvailableResources m))] := by
  simp only [detectDeadlock, deepCopy_eq]

theorem sum_map_add {α : Type} (l : List α) (f g : α → Nat) :
    (l.map fun x => f x + g x).sum = (l.map f).sum + (l.map g).sum := by
  induction l with
  | nil => rfl
  | cons x l ih =>
    simp only [List.map_cons, List.sum_cons, ih]
    omega

theorem foldl_setAvail_not_mem (k : String) :
    ∀ (rs : List Resource) (a : String → Int), k ∉ rs.map Resource.id →
      rs.foldl (fun a2 r => setAvail a2 r.id r.available) a k = a k := by
  intro rs
  induction rs with
  | nil => intro a _; rfl
  | cons r rs ih =>
    intro a h
    rw [List.map_cons] at h
    have hne : k ≠ r.id := fun he => h (by rw [he]; exact List.mem_cons_self _ _)
    rw [List.foldl_cons, ih _ fun hm => h (List.mem_cons_of_mem _ hm),
      setAvail_apply, if_neg hne]

theorem initialAvail_eq_zero (rs : List Resource) (k : String)
    (h : k ∉ rs.map Resource.id) : initialAvail rs k = 0 := by
  unfold initialAvail
  rw [foldl_setAvail_not_mem k rs _ h]

theorem calc_map_id (m : AllocationMatrix) :
    (calculateAvailableResources m).map Resource.id =
      m.resources.map Resource.id := by
  rw [calc_eq_subtractMany, subtractMany_map_id, List.map_map]
  rfl

/-- The spec's Scenario A is reproduced: deadlock involving P1 and P2. -/
theorem scenarioA_reproduced :
    (detectDeadlock sampleDeadlockMatrix).deadlocked = ["P1", "P2"] ∧
    (detectDeadlock sampleDeadlockMatrix).safeSequence = none := by
  decide

/-- The spec's Scenario B is reproduced: safe sequence P3, P1, P2. -/
theorem scenarioB_reproduced :
    (detectDeadlock sampleSafeMatrix).safeSequence = some ["P3", "P1", "P2"] ∧
    (detectDeadlock sampleSafeMatrix).deadlocked = [] := by
  decide

/-! ### Claim theorems -/

/-- Claim C1: in each round the scan admits exactly the first not-yet-finished
process whose every request entry with a strictly positive amount is at most
the current available amount of that resource (absent entries and entries
with amount ≤ 0, including negative ones, impose no constraint).  First
conjunct: the scan's result is exactly the first such process (any earlier
process is finished or fails the test).  Second conjunct: when one is found,
the round performs exactly one admission — it marks the process finished,
appends its id to the safe sequence, records one admission step and proceeds
to the next round, scanning no further process this round.  Third conjunct:
the updated availability adds every entry of the admitted process's
allocation map to the previous amounts. -/
theorem claim_c1_first_admissible_round (ps : List Process)
    (avail : String → Int) (fin : List String) :
    (∀ p, findAdmissible avail fin ps = some p ↔
      ∃ pre post, ps = pre ++ p :: post ∧ p.id ∉ fin ∧
        CanBeAdmitted avail p ∧
        ∀ q ∈ pre, q.id ∈ fin ∨ ¬ CanBeAdmitted avail q) ∧
    (∀ p ids fuel seq steps, findAdmissible avail fin ps = some p →
      detectLoop ps ids (fuel + 1) fin avail seq steps =
        detectLoop ps ids fuel (insertFinished fin p.id)
          (releaseAlloc avail p) (seq ++ [p.id])
          (steps ++ [admissionStep ids (insertFinished fin p.id)
            (releaseAlloc avail p) p])) ∧
    (∀ p k, releaseAlloc avail p k = avail k + entrySum p.allocation k) :=
  ⟨findAdmissible_some_iff avail fin ps,
    fun p ids fuel seq steps h =>
      detectLoop_succ_some ps ids fuel fin avail seq steps p h,
    fun p k => releaseAlloc_apply p avail k⟩

/-- Witness for claim C1 at a concrete scan: with no process finished and the
all-zero availability, the scan of [blockedProcess, freeProcess] admits
freeProcess, so the first-qualifying decomposition holds concretely. -/
theorem claim_c1_witness :
    ∃ pre post,
      [blockedProcess, freeProcess] = pre ++ freeProcess :: post ∧
      freeProcess.id ∉ ([] : List String) ∧
      CanBeAdmitted zeroAvail freeProcess ∧
      ∀ q ∈ pre, q.id ∈ ([] : List String) ∨ ¬ CanBeAdmitted zeroAvail q :=
  ((claim_c1_first_admissible_round [blockedProcess, freeProcess]
    zeroAvail []).1 freeProcess).mp (by decide)

/-- Claim C2 (counterexample): on `partialAdmissionMatrix` (unique process
ids P0 and P1), P0 is admitted and then the run deadlocks: the result has
`safeSequence` null and `deadlocked` = [P1], so the input id P0 appears in
neither returned sequence — refuting the claim that every id appears in
exactly one of them. -/
theorem claim_c2_counterexample :
    "P0" ∈ partialAdmissionMatrix.processes.map Process.id ∧
    (detectDeadlock partialAdmissionMatrix).safeSequence = none ∧
    (detectDeadlock partialAdmissionMatrix).deadlocked = ["P1"] ∧
    "P0" ∉ (detectDeadlock partialAdmissionMatrix).deadlocked := by
  decide

/-- Claim C2 (amended): for unique process ids, in a safe run every input id
appears in the safe sequence (exactly once — it is duplicate-free) and
`deadlocked` is empty; in a deadlocked run `safeSequence` is null and
`deadlocked` is a nonempty duplicate-free list of input ids (ids admitted
before the deadlock appear in neither returned sequence). -/
theorem claim_c2_coverage_amended (m : AllocationMatrix)
    (h : (m.processes.map Process.id).Nodup) :
    CoverageOK (m.processes.map Process.id) (detectDeadlock m) := by
  rw [detectDeadlock_eq]
  refine detectLoop_coverage m.processes (m.processes.map Process.id) h
    (m.processes.length + 1) [] _ [] _ List.nodup_nil (by simp) ?_ rfl
  have hd := List.Sublist.length_le (List.dedup_sublist (m.processes.map Process.id))
  rw [List.length_map] at hd
  simp only [List.length_nil]
  omega

/-- Witness for the amended claim C2 at a concrete safe run. -/
theorem claim_c2_witness :
    CoverageOK (singleProcessMatrix.processes.map Process.id)
      (detectDeadlock singleProcessMatrix) :=
  claim_c2_coverage_amended singleProcessMatrix (by decide)

/-- Claim C3: a round in which no process is admissible while unfinished
processes remain returns the deadlock result at once, whatever fuel is left:
`deadlocked` is the unfinished ids in original list order, `safeSequence` is
null, and exactly one final deadlock step is appended, whose remaining list
is those same ids. -/
theorem claim_c3_deadlock_round (ps : List Process) (ids : List String)
    (fuel : Nat) (fin : List String) (avail : String → Int) (seq : List String)
    (steps : List DetectionStep)
    (hnd : fin.Nodup) (hsub : ∀ x ∈ fin, x ∈ ps.map Process.id)
    (hnone : findAdmissible avail fin ps = none)
    (hrem : ∃ p ∈ ps, p.id ∉ fin) :
    detectLoop ps ids (fuel + 1) fin avail seq steps =
      { deadlocked := unfinishedIds ps fin
        safeSequence := none
        steps := steps ++ [deadlockStep (unfinishedIds ps fin) avail] } := by
  rcases hrem with ⟨p, hp, hpfin⟩
  have hlt : fin.length < ps.length := by
    have h1 : fin.toFinset.card = fin.length := by
      rw [List.card_toFinset, hnd.dedup]
    have h2 : fin.toFinset ⊆ (ps.map Process.id).toFinset.erase p.id := by
      intro x hx
      rw [List.mem_toFinset] at hx
      rw [Finset.mem_erase, List.mem_toFinset]
      exact ⟨fun he => hpfin (he ▸ hx), hsub x hx⟩
    have h3 := Finset.card_le_card h2
    have h4 : ((ps.map Process.id).toFinset.erase p.id).card =
        (ps.map Process.id).toFinset.card - 1 :=
      Finset.card_erase_of_mem (by
        rw [List.mem_toFinset]
        exact List.mem_map_of_mem Process.id hp)
    have h5 := List.toFinset_card_le (ps.map Process.id)
    have h6 : 0 < (ps.map Process.id).toFinset.card :=
      Finset.card_pos.mpr ⟨p.id, by
        rw [List.mem_toFinset]
        exact List.mem_map_of_mem Process.id hp⟩
    rw [List.length_map] at h5
    omega
  exact detectLoop_succ_deadlock ps ids fuel fin avail seq steps hnone hlt

/-- Witness for claim C3: Scenario A's processes under the all-zero
availability deadlock immediately in the first round. -/
theorem claim_c3_witness :
    detectLoop sampleDeadlockMatrix.processes ["P1", "P2"] 1 [] zeroAvail [] [] =
      { deadlocked := unfinishedIds sampleDeadlockMatrix.processes []
        safeSequence := none
        steps := [deadlockStep (unfinishedIds sampleDeadlockMatrix.processes [])
          zeroAvail] } :=
  claim_c3_deadlock_round sampleDeadlockMatrix.processes ["P1", "P2"] 0 []
    zeroAvail [] [] List.nodup_nil (by simp) (by decide)
    ⟨processA1, by decide, by decide⟩

/-- Claim C4 (code bug, evaluated at the failing input): on a matrix with one
resource (total 1, stored available 5) and no processes, the caller's matrix
after `calculateAvailableResources` is not the matrix passed in — the
resource's `available` has been overwritten from 5 to 1, because the array
spread copies only the array while its elements remain the caller's objects —
and the returned list holds exactly the caller's (mutated) resource states
rather than independent copies. -/
theorem claim_c4_calculator_mutates :
    (calculateAvailableResourcesS staleAvailableMatrix).2 ≠ staleAvailableMatrix ∧
    staleAvailableMatrix.resources.map Resource.available = [5] ∧
    (calculateAvailableResourcesS staleAvailableMatrix).2.resources.map
      Resource.available = [1] ∧
    (calculateAvailableResourcesS staleAvailableMatrix).1 =
      (calculateAvailableResourcesS staleAvailableMatrix).2.resources := by
  decide

/-- Claim C5 (counterexample): with two resources sharing the id R1 (totals 3
and 3) and one process allocating 2 of R1, only the first R1 in the list
absorbs the subtraction: the second keeps available 3 while
total − Σ allocation = 1, refuting the claim over all matrices. -/
theorem claim_c5_counterexample :
    ¬ ∀ r ∈ calculateAvailableResources duplicateResourceMatrix,
        r.available = r.total -
          (duplicateResourceMatrix.processes.map fun p =>
            lookupEntry p.allocation r.id).sum := by
  decide

/-- Claim C5 (amended): for a matrix whose resources have pairwise distinct
ids (and allocation maps with duplicate-free keys, as JS objects guarantee),
the returned list is the resource list with each `available` replaced by
total − Σ over processes of the process's allocation entry for that resource
(missing entries count 0); allocation entries whose id matches no resource
never enter any resource's sum. -/
theorem claim_c5_available_amended (m : AllocationMatrix)
    (hres : (m.resources.map Resource.id).Nodup)
    (halloc : ∀ p ∈ m.processes, (p.allocation.map Prod.fst).Nodup) :
    calculateAvailableResources m = m.resources.map fun r =>
      { r with available := r.total -
          (m.processes.map fun p => lookupEntry p.allocation r.id).sum } := by
  rw [calc_eq_subtractMany]
  have hnd0 : ((m.resources.map fun r =>
      ({ r with available := r.total } : Resource)).map Resource.id).Nodup := by
    rw [List.map_map]
    exact hres
  rw [subtractMany_eq_map _ _ hnd0, List.map_map]
  apply List.map_congr_left
  intro r hr
  simp only [Function.comp_apply]
  have hsum : entrySum (m.processes.flatMap Process.allocation) r.id =
      (m.processes.map fun p => lookupEntry p.allocation r.id).sum := by
    rw [entrySum_flatten]
    congr 1
    apply List.map_congr_left
    intro p hp
    exact entrySum_eq_lookup p.allocation r.id (halloc p hp)
  show ({ r with
    available := (r.total - entrySum (m.processes.flatMap Process.allocation) r.id) } :
      Resource) = _
  rw [hsum]

/-- Witness for the amended claim C5 at the spec's Scenario B matrix. -/
theorem claim_c5_witness :
    calculateAvailableResources sampleSafeMatrix =
      sampleSafeMatrix.resources.map fun r =>
        { r with available := r.total -
            (sampleSafeMatrix.processes.map fun p =>
              lookupEntry p.allocation r.id).sum } :=
  claim_c5_available_amended sampleSafeMatrix (by decide) (by decide)

/-- Claim C6: the detector terminates on every matrix.  First conjunct: the
number of recorded admission steps is at most the number of processes.
Second conjunct: the loop reaches its exit within processes.length + 1
rounds — granting the rounds loop any extra fuel produces the same result,
so no unbounded iteration is possible. -/
theorem claim_c6_termination (m : AllocationMatrix) :
    (detectDeadlock m).steps.countP isAdmissionStep ≤ m.processes.length ∧
    ∀ extra,
      detectLoop m.processes (m.processes.map Process.id)
        (m.processes.length + 1 + extra) []
        (initialAvail (calculateAvailableResources m)) []
        [initialStep (m.processes.map Process.id)
          (initialAvail (calculateAvailableResources m))] = detectDeadlock m := by
  have hd := List.Sublist.length_le (List.dedup_sublist (m.processes.map Process.id))
  rw [List.length_map] at hd
  constructor
  · rw [detectDeadlock_eq]
    have h := detectLoop_countP_le m.processes (m.processes.map Process.id)
      (m.processes.length + 1) []
      (initialAvail (calculateAvailableResources m)) []
      [initialStep (m.processes.map Process.id)
        (initialAvail (calculateAvailableResources m))]
      List.nodup_nil (by simp)
    have hz : ([initialStep (m.processes.map Process.id)
        (initialAvail (calculateAvailableResources m))].countP
          isAdmissionStep) = 0 := by
      simp [List.countP_cons, isAdmissionStep_initial]
    rw [hz] at h
    omega
  · intro extra
    rw [detectDeadlock_eq]
    apply detectLoop_fuel_congr m.processes (m.processes.map Process.id)
      _ _ [] _ _ _ List.nodup_nil (by simp)
    · simp only [List.length_nil]
      omega
    · simp only [List.length_nil]
      omega

/-- Claim C7: the recorded step descriptions match the spec's templates
exactly: the run's first step is the initial-availability step, and every
step is the initial step, an admission step for some process P carrying P's
exact template (with the satisfaction sentence present exactly when P's
request map has a positive entry), the deadlock step joining the deadlocked
ids with a comma and space, or the success step joining the returned safe
sequence with the arrow separator. -/
theorem claim_c7_descriptions (m : AllocationMatrix) :
    (detectDeadlock m).steps.head?.map DetectionStep.description =
      some specInitialDescription ∧
    ∀ s ∈ (detectDeadlock m).steps,
      DescribedStep m.processes (detectDeadlock m) s := by
  constructor
  · rw [detectDeadlock_eq]
    rcases detectLoop_steps_extend m.processes (m.processes.map Process.id)
      (m.processes.length + 1) []
      (initialAvail (calculateAvailableResources m)) []
      [initialStep (m.processes.map Process.id)
        (initialAvail (calculateAvailableResources m))] with ⟨rest, hrest⟩
    rw [hrest]
    rfl
  · rw [detectDeadlock_eq]
    apply detectLoop_descriptions
    intro s hs
    rw [List.mem_singleton] at hs
    subst hs
    exact Or.inl rfl

/-- Witness for claim C7 at Scenario B: the head fact concretely, and the
description predicate at the run's (member) initial step. -/
theorem claim_c7_witness :
    (detectDeadlock sampleSafeMatrix).steps.head?.map DetectionStep.description =
      some specInitialDescription ∧
    DescribedStep sampleSafeMatrix.processes (detectDeadlock sampleSafeMatrix)
      (initialStep (sampleSafeMatrix.processes.map Process.id)
        (initialAvail (calculateAvailableResources sampleSafeMatrix))) :=
  ⟨(claim_c7_descriptions sampleSafeMatrix).1,
    (claim_c7_descriptions sampleSafeMatrix).2 _
      (List.mem_of_mem_head? (by rfl))⟩

/-- Claim C8: neither `detectDeadlock` nor `generateResourceFlowGraph`
changes the caller's matrix: the state-passing embeddings return the caller's
matrix unchanged (the detector writes only to its deep copy, the graph
builder performs no writes), and the deep copy itself preserves every field
of every process and resource. -/
theorem claim_c8_no_mutation (m : AllocationMatrix) :
    (detectDeadlockS m).2 = m ∧ (generateResourceFlowGraphS m).2 = m ∧
    deepCopy m = m :=
  ⟨rfl, rfl, deepCopy_eq m⟩

/-- Claim C9 (counterexample): the allocation edge of
`singleAllocationMatrix` has id R1-P1, which is not the concatenation R1P1
of its source and target ids — the code inserts a hyphen between them. -/
theorem claim_c9_counterexample :
    ∃ e ∈ (generateResourceFlowGraph singleAllocationMatrix).edges,
      e.id ≠ e.source ++ e.target := by
  decide

/-- Claim C9 (amended): one node per process and one per resource (node id =
entity id, node count = processes + resources, in that order); one allocation
edge per positive allocation entry (resource to process) and one request edge
per positive request entry (process to resource), so the edge count is the
sum over processes of the positive allocation entries plus the positive
request entries; and each edge's id is the concatenation of its source id, a
hyphen, and its target id. -/
theorem claim_c9_graph_amended (m : AllocationMatrix) :
    (generateResourceFlowGraph m).nodes.length =
      m.processes.length + m.resources.length ∧
    (generateResourceFlowGraph m).nodes.map GraphNode.id =
      m.processes.map Process.id ++ m.resources.map Resource.id ∧
    (generateResourceFlowGraph m).edges.length =
      (m.processes.map fun p =>
        (p.allocation.filter fun e => decide (0 < e.2)).length +
        (p.request.filter fun e => decide (0 < e.2)).length).sum ∧
    (∀ e ∈ (generateResourceFlowGraph m).edges,
      e.id = e.source ++ "-" ++ e.target) ∧
    ∀ e, e ∈ (generateResourceFlowGraph m).edges ↔
      ∃ p ∈ m.processes,
        (e.type = "allocation" ∧ e.target = p.id ∧ 0 < e.amount ∧
          (e.source, e.amount) ∈ p.allocation ∧
          e.id = e.source ++ "-" ++ e.target) ∨
        (e.type = "request" ∧ e.source = p.id ∧ 0 < e.amount ∧
          (e.target, e.amount) ∈ p.request ∧
          e.id = e.source ++ "-" ++ e.target) := by
  refine ⟨?_, ?_, ?_, ?_, ?_⟩
  · simp [generateResourceFlowGraph]
  · simp only [generateResourceFlowGraph, List.map_append, List.map_map]
    rfl
  · simp only [generateResourceFlowGraph, List.length_append,
      List.length_flatMap, sum_map_add]
    congr 1
    · congr 1
      apply List.map_congr_left
      intro p hp
      simp [List.length_map]
    · congr 1
      apply List.map_congr_left
      intro p hp
      simp [List.length_map]
  · intro e he
    simp only [generateResourceFlowGraph] at he
    rcases List.mem_append.mp he with h | h
    · rcases List.mem_flatMap.mp h with ⟨p, hp, hmem⟩
      rcases List.mem_map.mp hmem with ⟨en, _, rfl⟩
      rfl
    · rcases List.mem_flatMap.mp h with ⟨p, hp, hmem⟩
      rcases List.mem_map.mp hmem with ⟨en, _, rfl⟩
      rfl
  · intro e
    constructor
    · intro he
      simp only [generateResourceFlowGraph] at he
      rcases List.mem_append.mp he with h | h
      · rcases List.mem_flatMap.mp h with ⟨p, hp, hmem⟩
        rcases List.mem_map.mp hmem with ⟨en, henf, rfl⟩
        rcases List.mem_filter.mp henf with ⟨hen, hpos⟩
        exact ⟨p, hp, Or.inl ⟨rfl, rfl, of_decide_eq_true hpos, hen, rfl⟩⟩
      · rcases List.mem_flatMap.mp h with ⟨p, hp, hmem⟩
        rcases List.mem_map.mp hmem with ⟨en, henf, rfl⟩
        rcases List.mem_filter.mp henf with ⟨hen, hpos⟩
        exact ⟨p, hp, Or.inr ⟨rfl, rfl, of_decide_eq_true hpos, hen, rfl⟩⟩
    · rintro ⟨p, hp, hcase⟩
      rcases e with ⟨eid, esrc, etgt, etyp, eamt⟩
      simp only [generateResourceFlowGraph]
      rcases hcase with ⟨htyp, htgt, hpos, hmem, hid⟩ | ⟨htyp, hsrc, hpos, hmem, hid⟩
      · simp only at htyp htgt hpos hmem hid
        subst htyp
        subst htgt
        subst hid
        apply List.mem_append.mpr
        refine Or.inl (List.mem_flatMap.mpr ⟨p, hp, List.mem_map.mpr
          ⟨(esrc, eamt), List.mem_filter.mpr ⟨hmem, decide_eq_true hpos⟩, rfl⟩⟩)
      · simp only at htyp hsrc hpos hmem hid
        subst htyp
        subst hsrc
        subst hid
        apply List.mem_append.mpr
        refine Or.inr (List.mem_flatMap.mpr ⟨p, hp, List.mem_map.mpr
          ⟨(etgt, eamt), List.mem_filter.mpr ⟨hmem, decide_eq_true hpos⟩, rfl⟩⟩)

/-- Witness for the amended claim C9: the membership characterization
produces the R1-P1 allocation edge of `singleAllocationMatrix`. -/
theorem claim_c9_witness :
    (⟨"R1-P1", "R1", "P1", "allocation", 1⟩ : GraphEdge) ∈
      (generateResourceFlowGraph singleAllocationMatrix).edges :=
  ((claim_c9_graph_amended singleAllocationMatrix).2.2.2.2 _).mpr
    ⟨⟨"P1", [("R1", 1)], []⟩, by decide,
      Or.inl ⟨rfl, rfl, by decide, by decide, rfl⟩⟩

/-- Claim C10 (counterexample): in `duplicateIdMatrix` both processes carry
the id A and the second has a positive request for the unknown resource X:
after the first A is admitted the run deadlocks, but `deadlocked` is empty —
the requesting process's id is not in it, refuting the claim as stated. -/
theorem claim_c10_counterexample :
    ∃ p ∈ duplicateIdMatrix.processes, ∃ e ∈ p.request,
      0 < e.2 ∧ e.1 ∉ duplicateIdMatrix.resources.map Resource.id ∧
      (∀ q ∈ duplicateIdMatrix.processes, ∀ a ∈ q.allocation, a.1 ≠ e.1) ∧
      (detectDeadlock duplicateIdMatrix).deadlocked = [] ∧
      p.id ∉ (detectDeadlock duplicateIdMatrix).deadlocked := by
  decide

/-- Claim C10 (amended): for unique process ids, a process with a strictly
positive request entry for a resource id that matches no resource and no
allocation entry of any process is never admitted: that request is compared
against availability 0 in every round, the run ends in deadlock with the
process's id among the deadlocked ids, `safeSequence` is null, and no
recorded step admits the process. -/
theorem claim_c10_unsatisfiable_request_amended (m : AllocationMatrix)
    (rid : String) (amt : Int) (p0 : Process)
    (hids : (m.processes.map Process.id).Nodup)
    (hp0 : p0 ∈ m.processes) (hreq : (rid, amt) ∈ p0.request) (hpos : 0 < amt)
    (hrid : rid ∉ m.resources.map Resource.id)
    (hnoalloc : ∀ q ∈ m.processes, ∀ e ∈ q.allocation, e.1 ≠ rid) :
    BlockedOutcome p0.id (detectDeadlock m) := by
  rw [detectDeadlock_eq]
  refine detectLoop_blocked m.processes (m.processes.map Process.id) rid amt p0
    hids hp0 hreq hpos hnoalloc (m.processes.length + 1) [] _ [] _
    List.nodup_nil (by simp) ?_ ?_ (by simp) ?_
  · have hd := List.Sublist.length_le
      (List.dedup_sublist (m.processes.map Process.id))
    rw [List.length_map] at hd
    simp only [List.length_nil]
    omega
  · apply initialAvail_eq_zero
    rw [calc_map_id]
    exact hrid
  · intro s hs
    rw [List.mem_singleton] at hs
    subst hs
    simp [initialStep]

/-- Witness for the amended claim C10: the process P of
`unknownRequestMatrix` requests 2 of the unknown resource X and is never
admitted. -/
theorem claim_c10_witness :
    BlockedOutcome "P" (detectDeadlock unknownRequestMatrix) :=
  claim_c10_unsatisfiable_request_amended unknownRequestMatrix "X" 2
    ⟨"P", [], [("X", 2)]⟩ (by decide) (by decide) (by decide) (by decide)
    (by decide) (by decide)

end DeadlockTool
